import Mathlib

/-!
# Verification of the YCSB-runner orchestration core

A shallow embedding of `src/runner/runner.py`: the `Runner.run` sweep loop
is embedded as a pure event-trace generator (fuel-based, since the Python
`itertools.count` loop is unbounded; the fuel is provably sufficient
whenever `inc_mpl ≥ 1`), and the helper algorithms — hook dispatch,
extraneous-config computation, section processing, typed-option parsing and
stats extraction — are embedded as pure functions parameterised by the
constants the module imports from `constants.py` (option-key table,
supported-DB list, label regex, stat regexps), which are external to the
core source.
-/

namespace YCSBRunner

/-- The per-target configuration attributes `Runner.run` reads from a
`DbSystem` instance: trial count, the three MPL sweep parameters, and the
clean-data flag. -/
structure DbConf where
  trials : Nat
  min_mpl : Int
  max_mpl : Int
  inc_mpl : Int
  clean_data : Bool
deriving DecidableEq, Repr

/-- Observable events emitted by `Runner.run`, one constructor per external
call site in the source.  Hook events record the dispatch location together
with the `mpl`/`trial` positional arguments passed at that call site (the
`db` argument is left implicit: events are grouped per target by the trace
structure).  `addstatsE` carries the `mpl`/`trial` fields set on the stats
row just before `db.stats.addstats(stats)`; `exportStats` is
`db.export_stats()`, tagged with the loop indices of the iteration that
issues it (the call itself takes no arguments). -/
inductive Event where
  | hookE (location : String) (mpl : Option Int) (trial : Option Nat)
  | copyConfig
  | copyWorkload
  | genWorkload
  | logE (msg : String)
  | cleanE
  | popenLoad
  | popenRun (mpl : Int)
  | addstatsE (mpl : Int) (trial : Nat)
  | exportStats (mpl : Int) (trial : Nat)
  | cleanupE
deriving DecidableEq, Repr

/-- The body of one executed MPL iteration (source lines 54–72): the events
after the `mpl > db.max_mpl` check passes, in source order.  The two
`clean_data`-guarded steps are `db.clean()` and the YCSB load invocation. -/
def iterBody (c : DbConf) (t : Nat) (mpl : Int) : List Event :=
  Event.logE "Cleaning the database..." ::
  ((if c.clean_data then [Event.cleanE] else []) ++
    (Event.logE "Loading YCSB data..." ::
      ((if c.clean_data then [Event.popenLoad] else []) ++
        [Event.logE "Running YCSB workload...",
         Event.popenRun mpl,
         Event.addstatsE mpl t,
         Event.hookE "POST_MPL" (some mpl) (some t),
         Event.logE "Exporting run stats...",
         Event.exportStats mpl t])))

/-- The `for mpl in count(start=db.min_mpl, step=db.inc_mpl)` loop (source
lines 49–72): each pass first dispatches the `PRE_MPL` hook, then breaks if
`mpl > db.max_mpl`, else runs the body and continues at `mpl + inc_mpl`.
The Python loop is unbounded, so the embedding takes a fuel argument;
`mplFuel` below is sufficient whenever `inc_mpl ≥ 1`. -/
def mplLoopTrace (c : DbConf) (t : Nat) (mpl : Int) : Nat → List Event
  | 0 => []
  | fuel + 1 =>
    Event.hookE "PRE_MPL" (some mpl) (some t) ::
      (if c.max_mpl < mpl then []
       else iterBody c t mpl ++ mplLoopTrace c t (mpl + c.inc_mpl) fuel)

/-- Fuel sufficient for the MPL loop started at `min_mpl` when
`inc_mpl ≥ 1`: at most `max_mpl - min_mpl + 1` executed steps plus the
final over-limit check. -/
def mplFuel (c : DbConf) : Nat :=
  (c.max_mpl - c.min_mpl).toNat + 2

/-- One pass of the trial loop (source lines 46–73): `PRE_TRIAL` hook, the
starting-trial log line, the MPL sweep, then the `POST_TRIAL` hook. -/
def trialTrace (c : DbConf) (t : Nat) : List Event :=
  Event.hookE "PRE_TRIAL" none (some t) ::
    Event.logE "Starting trial" ::
      (mplLoopTrace c t c.min_mpl (mplFuel c) ++
        [Event.hookE "POST_TRIAL" none (some t)])

/-- The `for trial in range(1, db.trials + 1)` loop: trials 1 .. trials in order. -/
def trialsTrace (c : DbConf) : List Event :=
  (List.range' 1 c.trials).flatMap (trialTrace c)

/-- The per-target setup events before the trial loop (source lines
38–45): `PRE_DB` hook, the two file copies and workload generation. -/
def dbSetup : List Event :=
  [Event.hookE "PRE_DB" none none,
   Event.copyConfig, Event.copyWorkload, Event.genWorkload]

/-- Everything `Runner.run` does for one target (source lines 38–75):
setup, the trial loop, then `db.cleanup()` and the `POST_DB` hook.  Note
the source has no `try/finally`: `cleanup` is simply the next statement
after the trial loop. -/
def dbTrace (c : DbConf) : List Event :=
  dbSetup ++ trialsTrace c ++ [Event.cleanupE, Event.hookE "POST_DB" none none]

/-- The whole of `Runner.run` over the target list (source lines 35–76). -/
def runTrace (dbs : List DbConf) : List Event :=
  Event.hookE "PRE_RUN" none none ::
    (dbs.flatMap dbTrace ++ [Event.hookE "POST_RUN" none none])

/-- The MPL values for which the sweep body executed, read off a trace as
the `mpl` tags of its `addstats` events, in order. -/
def executedMpls (tr : List Event) : List Int :=
  tr.filterMap fun e =>
    match e with
    | Event.addstatsE m _ => some m
    | _ => none

/-- Recogniser for `PRE_MPL` hook-dispatch events. -/
def isPreMpl : Event → Bool
  | Event.hookE l _ _ => l = "PRE_MPL"
  | _ => false

/-- Recogniser for `addstats` events. -/
def isAddstats : Event → Bool
  | Event.addstatsE _ _ => true
  | _ => false

/-- Which events of an intended trace actually execute when the external
world can raise: `fails e` marks the calls that raise.  `Runner.run` has no
exception handler anywhere (no `try`/`except`/`finally`), so the first
raising call aborts the whole run and the executed events are exactly the
longest failure-free prefix of the intended trace. -/
def execTrace (tr : List Event) (fails : Event → Bool) : List Event :=
  tr.takeWhile fun e => !fails e

/-! ## The MPL sweep: which values execute -/

theorem executedMpls_append (l r : List Event) :
    executedMpls (l ++ r) = executedMpls l ++ executedMpls r := by
  simp [executedMpls]

theorem executedMpls_iterBody (c : DbConf) (t : Nat) (mpl : Int) :
    executedMpls (iterBody c t mpl) = [mpl] := by
  cases hc : c.clean_data <;> simp [iterBody, executedMpls, hc]

theorem executedMpls_hook_cons (l : String) (a : Option Int) (b : Option Nat)
    (tr : List Event) :
    executedMpls (Event.hookE l a b :: tr) = executedMpls tr := by
  simp [executedMpls]

theorem executedMpls_mplLoop_succ (c : DbConf) (t : Nat) (mpl : Int) (fuel : Nat) :
    executedMpls (mplLoopTrace c t mpl (fuel + 1)) =
      if c.max_mpl < mpl then []
      else mpl :: executedMpls (mplLoopTrace c t (mpl + c.inc_mpl) fuel) := by
  by_cases hlt : c.max_mpl < mpl
  · simp [mplLoopTrace, hlt, executedMpls]
  · rw [mplLoopTrace, if_neg hlt, if_neg hlt, executedMpls_hook_cons,
      executedMpls_append, executedMpls_iterBody, List.singleton_append]

/-- Soundness of the sweep: every executed MPL value lies on the arithmetic
sequence started at the loop's current value and never exceeds `max_mpl`
(no hypothesis on the increment is needed). -/
theorem mem_executedMpls_sound (c : DbConf) (t : Nat) :
    ∀ (fuel : Nat) (mpl m : Int),
      m ∈ executedMpls (mplLoopTrace c t mpl fuel) →
      (∃ k : Nat, m = mpl + (k : Int) * c.inc_mpl) ∧ m ≤ c.max_mpl := by
  intro fuel
  induction fuel with
  | zero =>
    intro mpl m h
    simp [mplLoopTrace, executedMpls] at h
  | succ fuel ih =>
    intro mpl m h
    rw [executedMpls_mplLoop_succ] at h
    by_cases hlt : c.max_mpl < mpl
    · simp [hlt] at h
    · rw [if_neg hlt] at h
      rcases List.mem_cons.mp h with rfl | h
      · exact ⟨⟨0, by simp⟩, le_of_not_lt hlt⟩
      · obtain ⟨⟨k, hk⟩, hle⟩ := ih (mpl + c.inc_mpl) m h
        exact ⟨⟨k + 1, by rw [hk]; push_cast; ring⟩, hle⟩

/-- Completeness of the sweep for a positive increment: every value of the
arithmetic sequence that is still `≤ max_mpl` is executed, given enough
fuel to reach it. -/
theorem mem_executedMpls_complete (c : DbConf) (t : Nat) (hinc : 1 ≤ c.inc_mpl) :
    ∀ (k fuel : Nat) (mpl : Int),
      mpl + (k : Int) * c.inc_mpl ≤ c.max_mpl → k + 1 ≤ fuel →
      mpl + (k : Int) * c.inc_mpl ∈ executedMpls (mplLoopTrace c t mpl fuel) := by
  intro k
  induction k with
  | zero =>
    intro fuel mpl hle hf
    obtain ⟨f, rfl⟩ : ∃ f, fuel = f + 1 := ⟨fuel - 1, by omega⟩
    rw [executedMpls_mplLoop_succ]
    have hmpl : ¬ c.max_mpl < mpl := by simp at hle; omega
    simp [hmpl]
  | succ k ih =>
    intro fuel mpl hle hf
    obtain ⟨f, rfl⟩ : ∃ f, fuel = f + 1 := ⟨fuel - 1, by omega⟩
    have heq : mpl + ((k + 1 : Nat) : Int) * c.inc_mpl =
        (mpl + c.inc_mpl) + (k : Int) * c.inc_mpl := by push_cast; ring
    have hprod : (0 : Int) ≤ ((k + 1 : Nat) : Int) * c.inc_mpl :=
      mul_nonneg (by positivity) (by omega)
    have hmpl : ¬ c.max_mpl < mpl := by omega
    rw [executedMpls_mplLoop_succ, if_neg hmpl, heq]
    exact List.mem_cons_of_mem _
      (ih f (mpl + c.inc_mpl) (by rw [← heq]; exact hle) (by omega))

/-- C1: for a positive increment, the MPL values for which the sweep body
executes are exactly the arithmetic sequence `min_mpl, min_mpl + inc_mpl, …`
truncated at the first value strictly greater than `max_mpl` (a value equal
to `max_mpl` is executed, the first exceeding value never is); and the
three concrete examples: `(1, 5, 2)` executes `[1, 3, 5]`, `(2, 2, 1)`
executes `[2]`, and `min_mpl = 3, max_mpl = 2` executes nothing for every
increment. -/
theorem C1_mpl_sweep_values :
    (∀ (c : DbConf) (t : Nat), 1 ≤ c.inc_mpl →
      ∀ m : Int,
        m ∈ executedMpls (mplLoopTrace c t c.min_mpl (mplFuel c)) ↔
          ∃ k : Nat, m = c.min_mpl + (k : Int) * c.inc_mpl ∧ m ≤ c.max_mpl)
    ∧ executedMpls
        (mplLoopTrace ⟨1, 1, 5, 2, false⟩ 1 1 (mplFuel ⟨1, 1, 5, 2, false⟩)) = [1, 3, 5]
    ∧ executedMpls
        (mplLoopTrace ⟨1, 2, 2, 1, false⟩ 1 2 (mplFuel ⟨1, 2, 2, 1, false⟩)) = [2]
    ∧ ∀ inc : Int, executedMpls
        (mplLoopTrace ⟨1, 3, 2, inc, false⟩ 1 3 (mplFuel ⟨1, 3, 2, inc, false⟩)) = [] := by
  refine ⟨?_, by decide, by decide, fun inc => rfl⟩
  intro c t hinc m
  constructor
  · intro h
    obtain ⟨⟨k, hk⟩, hle⟩ := mem_executedMpls_sound c t _ _ m h
    exact ⟨k, hk, hle⟩
  · rintro ⟨k, rfl, hle⟩
    have hkk : (k : Int) ≤ (k : Int) * c.inc_mpl :=
      le_mul_of_one_le_right (by positivity) hinc
    exact mem_executedMpls_complete c t hinc k (mplFuel c) c.min_mpl hle
      (by unfold mplFuel; omega)

/-- Witness for `C1_mpl_sweep_values` at the concrete sweep
`min_mpl = 1, max_mpl = 5, inc_mpl = 2`: value 3 is executed. -/
theorem C1_mpl_sweep_values_witness :
    (3 : Int) ∈ executedMpls
      (mplLoopTrace ⟨2, 1, 5, 2, true⟩ 1 1 (mplFuel ⟨2, 1, 5, 2, true⟩)) :=
  (C1_mpl_sweep_values.1 ⟨2, 1, 5, 2, true⟩ 1 (by decide) 3).mpr
    ⟨1, by norm_num, by norm_num⟩

/-! ## The MPL sweep: PRE_MPL hook count -/

/-- Fuel sufficient for the MPL loop started at `mpl` when `inc_mpl ≥ 1`. -/
def mplNeeded (c : DbConf) (mpl : Int) : Nat :=
  if c.max_mpl < mpl then 1 else (c.max_mpl - mpl).toNat + 2

theorem countP_isPreMpl_iterBody (c : DbConf) (t : Nat) (mpl : Int) :
    (iterBody c t mpl).countP isPreMpl = 0 := by
  cases hc : c.clean_data <;> simp [iterBody, isPreMpl, hc]

theorem countP_isAddstats_iterBody (c : DbConf) (t : Nat) (mpl : Int) :
    (iterBody c t mpl).countP isAddstats = 1 := by
  cases hc : c.clean_data <;> simp [iterBody, isAddstats, hc]

/-- Core count invariant of the sweep loop: with a positive increment and
sufficient fuel, `PRE_MPL` is dispatched exactly once more than the number
of executed iterations (the extra dispatch is the one for the first
over-limit value, fired before the `mpl > max_mpl` check breaks the loop). -/
theorem countP_mplLoop (c : DbConf) (t : Nat) (hinc : 1 ≤ c.inc_mpl) :
    ∀ (fuel : Nat) (mpl : Int), mplNeeded c mpl ≤ fuel →
      (mplLoopTrace c t mpl fuel).countP isPreMpl =
        (mplLoopTrace c t mpl fuel).countP isAddstats + 1 := by
  intro fuel
  induction fuel with
  | zero =>
    intro mpl hf
    have : 1 ≤ mplNeeded c mpl := by unfold mplNeeded; split <;> omega
    omega
  | succ fuel ih =>
    intro mpl hf
    rw [mplLoopTrace]
    by_cases hlt : c.max_mpl < mpl
    · simp [hlt, isPreMpl, isAddstats]
    · have hrec : mplNeeded c (mpl + c.inc_mpl) ≤ fuel := by
        unfold mplNeeded at hf ⊢
        rw [if_neg hlt] at hf
        split <;> omega
      have hih := ih (mpl + c.inc_mpl) hrec
      have h1 : isPreMpl (Event.hookE "PRE_MPL" (some mpl) (some t)) = true := rfl
      have h2 : isAddstats (Event.hookE "PRE_MPL" (some mpl) (some t)) = false := rfl
      simp [if_neg hlt, List.countP_cons, List.countP_append,
        countP_isPreMpl_iterBody, countP_isAddstats_iterBody, h1, h2]
      omega

/-- C3: the `PRE_MPL` hook fires before the limit check — it is the head
event of every loop pass, including the pass whose candidate value exceeds
`max_mpl` — so on a normally-terminating sweep (positive increment) the
number of `PRE_MPL` dispatches equals the number of executed MPL steps
plus one. -/
theorem C3_pre_mpl_fires_before_limit_check :
    (∀ (c : DbConf) (t : Nat) (mpl : Int) (fuel : Nat),
      (mplLoopTrace c t mpl (fuel + 1)).head? =
        some (Event.hookE "PRE_MPL" (some mpl) (some t)))
    ∧ ∀ (c : DbConf) (t : Nat), 1 ≤ c.inc_mpl →
        (mplLoopTrace c t c.min_mpl (mplFuel c)).countP isPreMpl =
          (mplLoopTrace c t c.min_mpl (mplFuel c)).countP isAddstats + 1 := by
  constructor
  · intro c t mpl fuel
    rw [mplLoopTrace]
    rfl
  · intro c t hinc
    exact countP_mplLoop c t hinc (mplFuel c) c.min_mpl
      (by unfold mplNeeded mplFuel; split <;> omega)

/-- Witness for `C3_pre_mpl_fires_before_limit_check` on the sweep
`min_mpl = 1, max_mpl = 5, inc_mpl = 2`: 4 `PRE_MPL` dispatches for 3
executed steps. -/
theorem C3_pre_mpl_fires_before_limit_check_witness :
    (mplLoopTrace ⟨1, 1, 5, 2, false⟩ 1 1 (mplFuel ⟨1, 1, 5, 2, false⟩)).countP isPreMpl =
      (mplLoopTrace ⟨1, 1, 5, 2, false⟩ 1 1
        (mplFuel ⟨1, 1, 5, 2, false⟩)).countP isAddstats + 1 :=
  C3_pre_mpl_fires_before_limit_check.2 ⟨1, 1, 5, 2, false⟩ 1 (by decide)

/-! ## Per-iteration event ordering (durability and hook bracketing) -/

/-- The `addstats`/`export` events tagged with the sweep pair `(m, t)`. -/
def pairAddExport (m : Int) (t : Nat) : Event → Bool := fun e =>
  e == Event.addstatsE m t || e == Event.exportStats m t

/-- The `addstats`/`POST_MPL`/`export` events tagged with `(m, t)`. -/
def pairAddPostExport (m : Int) (t : Nat) : Event → Bool := fun e =>
  e == Event.addstatsE m t || e == Event.hookE "POST_MPL" (some m) (some t) ||
    e == Event.exportStats m t

theorem mem_addstats_iterBody (c : DbConf) (t' : Nat) (mpl m : Int) (t : Nat) :
    Event.addstatsE m t ∈ iterBody c t' mpl ↔ m = mpl ∧ t = t' := by
  cases hc : c.clean_data <;> simp [iterBody, hc]

/-- Every `addstats` event of the sweep loop carries the loop's own trial
tag, and its MPL tag is an executed value of that very trace. -/
theorem addstats_mem_mplLoop (c : DbConf) (t' : Nat) :
    ∀ (fuel : Nat) (mpl m : Int) (t : Nat),
      Event.addstatsE m t ∈ mplLoopTrace c t' mpl fuel →
      t = t' ∧ m ∈ executedMpls (mplLoopTrace c t' mpl fuel) := by
  intro fuel
  induction fuel with
  | zero => intro mpl m t h; simp [mplLoopTrace] at h
  | succ fuel ih =>
    intro mpl m t h
    rw [mplLoopTrace] at h
    rw [executedMpls_mplLoop_succ]
    by_cases hlt : c.max_mpl < mpl
    · simp [hlt] at h
    · rw [if_neg hlt] at h ⊢
      rcases List.mem_cons.mp h with h | h
      · exact absurd h (by simp)
      · rcases List.mem_append.mp h with h | h
        · obtain ⟨rfl, rfl⟩ := (mem_addstats_iterBody c t' mpl m t).mp h
          exact ⟨rfl, List.mem_cons_self _ _⟩
        · obtain ⟨ht, hm⟩ := ih (mpl + c.inc_mpl) m t h
          exact ⟨ht, List.mem_cons_of_mem _ hm⟩

/-- Generic shape lemma: a predicate that only ever accepts the
`(m, t)`-tagged `addstats`/`POST_MPL`/`export` events filters the sweep
loop down to its per-iteration block, which appears exactly once when
`(m, t)` is an executed pair of the loop and not at all otherwise. -/
theorem filter_mplLoop_pair (c : DbConf) (m : Int) (t : Nat) (p : Event → Bool)
    (target : List Event)
    (honly : ∀ e, p e = true →
      e = Event.addstatsE m t ∨ e = Event.exportStats m t ∨
        e = Event.hookE "POST_MPL" (some m) (some t))
    (hiter : ∀ (t' : Nat) (mpl : Int),
      (iterBody c t' mpl).filter p = if mpl = m ∧ t' = t then target else [])
    (hinc : 1 ≤ c.inc_mpl) :
    ∀ (fuel t' : Nat) (mpl : Int),
      (mplLoopTrace c t' mpl fuel).filter p =
        if t' = t ∧ m ∈ executedMpls (mplLoopTrace c t' mpl fuel) then target
        else [] := by
  intro fuel
  induction fuel with
  | zero =>
    intro t' mpl
    simp [mplLoopTrace, executedMpls]
  | succ fuel ih =>
    intro t' mpl
    have hp : p (Event.hookE "PRE_MPL" (some mpl) (some t')) = false := by
      cases hpe : p (Event.hookE "PRE_MPL" (some mpl) (some t'))
      · rfl
      · rcases honly _ hpe with h | h | h <;> simp at h
    rw [executedMpls_mplLoop_succ, mplLoopTrace]
    by_cases hlt : c.max_mpl < mpl
    · simp [hlt, List.filter_cons, hp]
    · rw [if_neg hlt, if_neg hlt, List.filter_cons_of_neg (by simp [hp]),
        List.filter_append, hiter]
      by_cases hm : mpl = m ∧ t' = t
      · obtain ⟨rfl, rfl⟩ := hm
        have hnot : mpl ∉ executedMpls (mplLoopTrace c t' (mpl + c.inc_mpl) fuel) := by
          intro hmem
          obtain ⟨⟨k, hk⟩, _⟩ := mem_executedMpls_sound c t' fuel (mpl + c.inc_mpl) mpl hmem
          have : (0 : Int) ≤ (k : Int) * c.inc_mpl := mul_nonneg (by positivity) (by omega)
          omega
        rw [ih t' (mpl + c.inc_mpl)]
        simp [hnot]
      · rw [if_neg hm, List.nil_append, ih t' (mpl + c.inc_mpl)]
        by_cases ht : t' = t
        · subst ht
          have hne : m ≠ mpl := fun h => hm ⟨h.symm, rfl⟩
          simp [List.mem_cons, hne]
        · simp [ht]

/-- Lifting `filter_mplLoop_pair` to a whole trial's trace. -/
theorem filter_trialTrace_pair (c : DbConf) (m : Int) (t : Nat) (p : Event → Bool)
    (target : List Event)
    (honly : ∀ e, p e = true →
      e = Event.addstatsE m t ∨ e = Event.exportStats m t ∨
        e = Event.hookE "POST_MPL" (some m) (some t))
    (hiter : ∀ (t' : Nat) (mpl : Int),
      (iterBody c t' mpl).filter p = if mpl = m ∧ t' = t then target else [])
    (hinc : 1 ≤ c.inc_mpl) :
    ∀ t' : Nat,
      (trialTrace c t').filter p =
        if t' = t ∧
            m ∈ executedMpls (mplLoopTrace c t' c.min_mpl (mplFuel c)) then target
        else [] := by
  intro t'
  have hfalse : ∀ e, (e = Event.hookE "PRE_TRIAL" none (some t') ∨
      e = Event.logE "Starting trial" ∨
      e = Event.hookE "POST_TRIAL" none (some t')) → p e = false := by
    intro e he
    cases hpe : p e
    · rfl
    · rcases honly _ hpe with h | h | h <;> rcases he with he | he | he <;>
        simp [he] at h
  rw [trialTrace, List.filter_cons_of_neg (by simp [hfalse _ (Or.inl rfl)]),
    List.filter_cons_of_neg (by simp [hfalse _ (Or.inr (Or.inl rfl))]),
    List.filter_append, filter_mplLoop_pair c m t p target honly hiter hinc,
    List.filter_cons_of_neg (by simp [hfalse _ (Or.inr (Or.inr rfl))]),
    List.filter_nil, List.append_nil]

/-- Lifting to a list of trials with distinct trial numbers. -/
theorem filter_trials_pair (c : DbConf) (m : Int) (t : Nat) (p : Event → Bool)
    (target : List Event)
    (honly : ∀ e, p e = true →
      e = Event.addstatsE m t ∨ e = Event.exportStats m t ∨
        e = Event.hookE "POST_MPL" (some m) (some t))
    (hiter : ∀ (t' : Nat) (mpl : Int),
      (iterBody c t' mpl).filter p = if mpl = m ∧ t' = t then target else [])
    (hinc : 1 ≤ c.inc_mpl) :
    ∀ ts : List Nat, ts.Nodup →
      ((ts.flatMap (trialTrace c)).filter p) =
        if t ∈ ts ∧
            m ∈ executedMpls (mplLoopTrace c t c.min_mpl (mplFuel c)) then target
        else [] := by
  intro ts
  induction ts with
  | nil => simp
  | cons t' ts ih =>
    intro hnd
    rw [List.flatMap_cons, List.filter_append,
      filter_trialTrace_pair c m t p target honly hiter hinc t',
      ih (List.Nodup.of_cons hnd)]
    by_cases ht : t' = t
    · subst ht
      have hnotmem : t' ∉ ts := (List.nodup_cons.mp hnd).1
      by_cases hm : m ∈ executedMpls (mplLoopTrace c t' c.min_mpl (mplFuel c))
      · simp [hm, hnotmem]
      · simp [hm, hnotmem]
    · rw [if_neg (show ¬(t' = t ∧
          m ∈ executedMpls (mplLoopTrace c t' c.min_mpl (mplFuel c))) from
          fun h => ht h.1), List.nil_append]
      by_cases htm : t ∈ ts
      · simp [htm, List.mem_cons, Ne.symm ht]
      · simp [htm, show ¬t = t' from fun h => ht h.symm]

/-- Lifting to the full per-target trace `dbTrace`. -/
theorem filter_dbTrace_pair (c : DbConf) (m : Int) (t : Nat) (p : Event → Bool)
    (target : List Event)
    (honly : ∀ e, p e = true →
      e = Event.addstatsE m t ∨ e = Event.exportStats m t ∨
        e = Event.hookE "POST_MPL" (some m) (some t))
    (hiter : ∀ (t' : Nat) (mpl : Int),
      (iterBody c t' mpl).filter p = if mpl = m ∧ t' = t then target else [])
    (hinc : 1 ≤ c.inc_mpl) :
    (dbTrace c).filter p =
      if t ∈ List.range' 1 c.trials ∧
          m ∈ executedMpls (mplLoopTrace c t c.min_mpl (mplFuel c)) then target
      else [] := by
  have hfalse : ∀ e, (e ∈ dbSetup ∨
      e = Event.cleanupE ∨ e = Event.hookE "POST_DB" none none) → p e = false := by
    intro e he
    cases hpe : p e
    · rfl
    · rcases honly _ hpe with h | h | h <;> subst h <;>
        simp [dbSetup] at he
  have h0 : List.filter p dbSetup = [] :=
    List.filter_eq_nil_iff.mpr (fun e he => by simp [hfalse e (Or.inl he)])
  have h1 : p Event.cleanupE = false := hfalse _ (Or.inr (Or.inl rfl))
  have h2 : p (Event.hookE "POST_DB" none none) = false := hfalse _ (Or.inr (Or.inr rfl))
  rw [dbTrace, List.filter_append, List.filter_append, trialsTrace,
    filter_trials_pair c m t p target honly hiter hinc _
      (List.nodup_range' 1 c.trials 1 Nat.one_pos),
    h0, List.filter_cons_of_neg (by simp [h1]),
    List.filter_cons_of_neg (by simp [h2]), List.filter_nil,
    List.nil_append, List.append_nil]

theorem pairAddExport_only (m : Int) (t : Nat) :
    ∀ e, pairAddExport m t e = true →
      e = Event.addstatsE m t ∨ e = Event.exportStats m t ∨
        e = Event.hookE "POST_MPL" (some m) (some t) := by
  intro e he
  simp only [pairAddExport, Bool.or_eq_true, beq_iff_eq] at he
  exact he.imp id Or.inl

theorem pairAddPostExport_only (m : Int) (t : Nat) :
    ∀ e, pairAddPostExport m t e = true →
      e = Event.addstatsE m t ∨ e = Event.exportStats m t ∨
        e = Event.hookE "POST_MPL" (some m) (some t) := by
  intro e he
  simp only [pairAddPostExport, Bool.or_eq_true, beq_iff_eq] at he
  rcases he with (he | he) | he
  · exact Or.inl he
  · exact Or.inr (Or.inr he)
  · exact Or.inr (Or.inl he)

theorem filter_pairAddExport_iterBody (c : DbConf) (t' : Nat) (mpl m : Int) (t : Nat) :
    (iterBody c t' mpl).filter (pairAddExport m t) =
      if mpl = m ∧ t' = t then [Event.addstatsE m t, Event.exportStats m t]
      else [] := by
  by_cases h : mpl = m ∧ t' = t
  · obtain ⟨rfl, rfl⟩ := h
    cases hc : c.clean_data <;> simp [iterBody, pairAddExport, hc]
  · rw [if_neg h]
    rcases not_and_or.mp h with h | h <;>
      cases hc : c.clean_data <;> simp [iterBody, pairAddExport, hc, h]

theorem filter_pairAddPostExport_iterBody (c : DbConf) (t' : Nat) (mpl m : Int)
    (t : Nat) :
    (iterBody c t' mpl).filter (pairAddPostExport m t) =
      if mpl = m ∧ t' = t then
        [Event.addstatsE m t, Event.hookE "POST_MPL" (some m) (some t),
         Event.exportStats m t]
      else [] := by
  by_cases h : mpl = m ∧ t' = t
  · obtain ⟨rfl, rfl⟩ := h
    cases hc : c.clean_data <;> simp [iterBody, pairAddPostExport, hc]
  · rw [if_neg h]
    rcases not_and_or.mp h with h | h <;>
      cases hc : c.clean_data <;> simp [iterBody, pairAddPostExport, hc, h]

/-- An `addstats` event present in a target's trace pins down its sweep
coordinates: the trial number is one the trial loop runs, and the MPL value
is executed by that trial's sweep. -/
theorem addstats_mem_dbTrace (c : DbConf) (m : Int) (t : Nat)
    (h : Event.addstatsE m t ∈ dbTrace c) :
    t ∈ List.range' 1 c.trials ∧
      m ∈ executedMpls (mplLoopTrace c t c.min_mpl (mplFuel c)) := by
  simp only [dbTrace, List.mem_append] at h
  rcases h with (h | h) | h
  · simp [dbSetup] at h
  · rw [trialsTrace, List.mem_flatMap] at h
    obtain ⟨t', ht', hmem⟩ := h
    rw [trialTrace] at hmem
    rcases List.mem_cons.mp hmem with h | hmem
    · exact absurd h (by simp)
    rcases List.mem_cons.mp hmem with h | hmem
    · exact absurd h (by simp)
    rcases List.mem_append.mp hmem with hmem | h
    · obtain ⟨rfl, hm⟩ := addstats_mem_mplLoop c t' _ _ m t hmem
      exact ⟨ht', hm⟩
    · simp at h
  · simp at h

/-- C4: for every executed `(trial, mpl)` pair of a target's run, the
statistics export is invoked exactly once for that pair, and only after the
statistics record for that pair (with its `mpl`/`trial` fields set) was
appended: restricted to that pair's `addstats`/`export` events, the whole
per-target trace is exactly `[addstats, export]`. -/
theorem C4_export_once_after_append (c : DbConf) (m : Int) (t : Nat)
    (hinc : 1 ≤ c.inc_mpl) (h : Event.addstatsE m t ∈ dbTrace c) :
    (dbTrace c).filter (pairAddExport m t) =
      [Event.addstatsE m t, Event.exportStats m t] := by
  obtain ⟨ht, hm⟩ := addstats_mem_dbTrace c m t h
  rw [filter_dbTrace_pair c m t _ _ (pairAddExport_only m t)
    (fun t' mpl => filter_pairAddExport_iterBody c t' mpl m t) hinc,
    if_pos ⟨ht, hm⟩]

/-- Witness for `C4_export_once_after_append` on the sweep
`trials = 1, min_mpl = 1, max_mpl = 3, inc_mpl = 2` at the pair `(3, 1)`. -/
theorem C4_export_once_after_append_witness :
    (dbTrace ⟨1, 1, 3, 2, false⟩).filter (pairAddExport 3 1) =
      [Event.addstatsE 3 1, Event.exportStats 3 1] :=
  C4_export_once_after_append ⟨1, 1, 3, 2, false⟩ 3 1 (by decide) (by decide)

/-- C9: in every executed MPL iteration, the `POST_MPL` hook is dispatched
after the statistics record was appended and before the statistics export
for that iteration: restricted to that pair's
`addstats`/`POST_MPL`/`export` events, the per-target trace is exactly
`[addstats, POST_MPL, export]`. -/
theorem C9_post_mpl_between_append_and_export (c : DbConf) (m : Int) (t : Nat)
    (hinc : 1 ≤ c.inc_mpl) (h : Event.addstatsE m t ∈ dbTrace c) :
    (dbTrace c).filter (pairAddPostExport m t) =
      [Event.addstatsE m t, Event.hookE "POST_MPL" (some m) (some t),
       Event.exportStats m t] := by
  obtain ⟨ht, hm⟩ := addstats_mem_dbTrace c m t h
  rw [filter_dbTrace_pair c m t _ _ (pairAddPostExport_only m t)
    (fun t' mpl => filter_pairAddPostExport_iterBody c t' mpl m t) hinc,
    if_pos ⟨ht, hm⟩]

/-- Witness for `C9_post_mpl_between_append_and_export` on the sweep
`trials = 2, min_mpl = 1, max_mpl = 2, inc_mpl = 1` at the pair `(2, 2)`. -/
theorem C9_post_mpl_between_append_and_export_witness :
    (dbTrace ⟨2, 1, 2, 1, true⟩).filter (pairAddPostExport 2 2) =
      [Event.addstatsE 2 2, Event.hookE "POST_MPL" (some 2) (some 2),
       Event.exportStats 2 2] :=
  C9_post_mpl_between_append_and_export ⟨2, 1, 2, 1, true⟩ 2 2 (by decide) (by decide)

/-! ## Cleanup placement and the failure path -/

theorem cleanupE_not_mem_iterBody (c : DbConf) (t : Nat) (mpl : Int) :
    Event.cleanupE ∉ iterBody c t mpl := by
  cases hc : c.clean_data <;> simp [iterBody, hc]

theorem cleanupE_not_mem_mplLoop (c : DbConf) (t : Nat) :
    ∀ (fuel : Nat) (mpl : Int), Event.cleanupE ∉ mplLoopTrace c t mpl fuel := by
  intro fuel
  induction fuel with
  | zero => intro mpl; simp [mplLoopTrace]
  | succ fuel ih =>
    intro mpl h
    rw [mplLoopTrace] at h
    by_cases hlt : c.max_mpl < mpl
    · simp [hlt] at h
    · rw [if_neg hlt] at h
      rcases List.mem_cons.mp h with h | h
      · simp at h
      · rcases List.mem_append.mp h with h | h
        · exact cleanupE_not_mem_iterBody c t mpl h
        · exact ih (mpl + c.inc_mpl) h

theorem cleanupE_not_mem_trialsTrace (c : DbConf) :
    Event.cleanupE ∉ trialsTrace c := by
  rw [trialsTrace]
  intro h
  rw [List.mem_flatMap] at h
  obtain ⟨t', _, hmem⟩ := h
  rw [trialTrace] at hmem
  rcases List.mem_cons.mp hmem with h | hmem
  · simp at h
  rcases List.mem_cons.mp hmem with h | hmem
  · simp at h
  rcases List.mem_append.mp hmem with hmem | h
  · exact cleanupE_not_mem_mplLoop c t' _ _ hmem
  · simp at h

/-- If some event of the left part fails the scan predicate, `takeWhile`
never reaches the right part. -/
theorem takeWhile_append_of_stop {α : Type} (p : α → Bool) :
    ∀ (l r : List α), (∃ e ∈ l, p e = false) →
      (l ++ r).takeWhile p = l.takeWhile p := by
  intro l
  induction l with
  | nil => intro r h; simp at h
  | cons x l ih =>
    intro r h
    by_cases hx : p x = true
    · obtain ⟨e, he, hpe⟩ := h
      rcases List.mem_cons.mp he with rfl | he
      · rw [hx] at hpe; cases hpe
      · rw [List.cons_append, List.takeWhile_cons_of_pos hx,
          List.takeWhile_cons_of_pos hx, ih r ⟨e, he, hpe⟩]
    · rw [List.cons_append, List.takeWhile_cons_of_neg hx,
        List.takeWhile_cons_of_neg hx]

/-- C2 counterexample: with `trials = 1, min_mpl = max_mpl = inc_mpl = 1,
clean_data = false`, let the external YCSB run invocation (`popenRun 1`,
part of this target's trial-loop body) raise.  `Runner.run` has no
`try/finally` around the trial loop, so execution aborts before reaching
`db.cleanup()`: the executed events contain no cleanup at all, refuting
the claim that cleanup is invoked once whether or not the trial loop body
raised. -/
theorem C2_cleanup_counterexample :
    Event.popenRun 1 ∈ trialsTrace ⟨1, 1, 1, 1, false⟩ ∧
      (execTrace (dbTrace ⟨1, 1, 1, 1, false⟩)
          (fun e => e == Event.popenRun 1)).count Event.cleanupE = 0 := by
  decide

/-- C2 (amended): on the success path each target's cleanup is invoked
exactly once, after that target's trial loop; but if any operation of the
per-target phase before it (setup or trial loop) raises, the run aborts and
the current target's cleanup is not invoked at all. -/
theorem C2_cleanup_success_path_only :
    (∀ c : DbConf,
      dbTrace c =
        (dbSetup ++ trialsTrace c) ++
          [Event.cleanupE, Event.hookE "POST_DB" none none] ∧
      Event.cleanupE ∉ dbSetup ++ trialsTrace c ∧
      (dbTrace c).count Event.cleanupE = 1)
    ∧ ∀ (c : DbConf) (fails : Event → Bool),
        (∃ e ∈ dbSetup ++ trialsTrace c, fails e = true) →
        (execTrace (dbTrace c) fails).count Event.cleanupE = 0 := by
  have hnotmem : ∀ c : DbConf, Event.cleanupE ∉ dbSetup ++ trialsTrace c := by
    intro c h
    rcases List.mem_append.mp h with h | h
    · simp [dbSetup] at h
    · exact cleanupE_not_mem_trialsTrace c h
  have hstruct : ∀ c : DbConf, dbTrace c =
      (dbSetup ++ trialsTrace c) ++
        [Event.cleanupE, Event.hookE "POST_DB" none none] := by
    intro c
    simp [dbTrace, List.append_assoc]
  constructor
  · intro c
    refine ⟨hstruct c, hnotmem c, ?_⟩
    rw [hstruct c, List.count_append,
      List.count_eq_zero_of_not_mem (hnotmem c)]
    decide
  · intro c fails ⟨e, he, hfe⟩
    have hstop : execTrace (dbTrace c) fails =
        (dbSetup ++ trialsTrace c).takeWhile (fun e => !fails e) := by
      rw [execTrace, hstruct c]
      exact takeWhile_append_of_stop _ _ _ ⟨e, he, by simp [hfe]⟩
    rw [hstop]
    have hsub := (List.takeWhile_sublist
      (l := dbSetup ++ trialsTrace c) (fun e => !fails e)).count_le Event.cleanupE
    rw [List.count_eq_zero_of_not_mem (hnotmem c)] at hsub
    omega

/-- Witness for `C2_cleanup_success_path_only`: a failing `db.clean()` call
inside trial 1 leaves the executed trace without any cleanup event. -/
theorem C2_cleanup_success_path_only_witness :
    (execTrace (dbTrace ⟨1, 1, 1, 1, true⟩)
        (fun e => e == Event.cleanE)).count Event.cleanupE = 0 :=
  C2_cleanup_success_path_only.2 ⟨1, 1, 1, 1, true⟩ _
    ⟨Event.cleanE, by decide, by decide⟩

/-! ## Hook dispatch (`Runner.__run_hooks`) -/

/-- The `for h in self.__hooks[location]: h(*args)` loop: each callback is
invoked in order; an invocation is recorded as a (callback, args) pair. -/
def runHooksLoop {C A : Type} (hs : List C) (args : A) : List (C × A) :=
  match hs with
  | [] => []
  | h :: rest => (h, args) :: runHooksLoop rest args

/-- Model of `Runner.__run_hooks` (source lines 206–216): uppercase the location,
look it up in the hook table, and when present run every callback
registered there, in registration order, with the same arguments; when
absent, do nothing. -/
def run_hooks {C A : Type} (hooks : String → Option (List C)) (location : String)
    (args : A) : List (C × A) :=
  match hooks location.toUpper with
  | some hs => runHooksLoop hs args
  | none => []

theorem runHooksLoop_eq_map {C A : Type} (args : A) :
    ∀ hs : List C, runHooksLoop hs args = hs.map (fun h => (h, args)) := by
  intro hs
  induction hs with
  | nil => rfl
  | cons h rest ih => rw [runHooksLoop, ih, List.map_cons]

/-- C8: hook dispatch looks up the uppercased location; when it is present
in the table every callback registered there is invoked exactly once, in
registration order, each with the same positional arguments; when it is
absent nothing is invoked and no error is raised. -/
theorem C8_hook_dispatch {C A : Type} (hooks : String → Option (List C))
    (location : String) (args : A) :
    (∀ hs, hooks location.toUpper = some hs →
      run_hooks hooks location args = hs.map (fun h => (h, args)))
    ∧ (hooks location.toUpper = none → run_hooks hooks location args = []) := by
  constructor
  · intro hs h
    rw [run_hooks, h]
    exact runHooksLoop_eq_map args hs
  · intro h
    rw [run_hooks, h]

/-- Witness for `C8_hook_dispatch`: two callbacks registered at every
location are both invoked, in registration order, with the same argument. -/
theorem C8_hook_dispatch_witness :
    run_hooks (fun _ => some [0, 1]) "pre_mpl" (7 : Int) = [(0, 7), (1, 7)] := by
  have h := (C8_hook_dispatch (fun _ => some [0, 1]) "pre_mpl" (7 : Int)).1
    [0, 1] rfl
  simpa using h

/-! ## Extraneous config (`Runner.__extraneous_config`) -/

/-- Model of `Runner.__extraneous_config` (source lines 129–141): the set of keys of
the raw config section minus the recognized option keys, each mapped to the
section's raw value for it (`config_section.get(k)`, modelled as an
association-list lookup).  The Python code takes a set difference; here the
deduplicated key list is filtered, which has the same keys. -/
def extraneous_config (option_keys : List String) (sec : List (String × String)) :
    List (String × Option String) :=
  (((sec.map Prod.fst).dedup).filter (fun k => !option_keys.contains k)).map
    (fun k => (k, sec.lookup k))

theorem lookup_map_self (sec : List (String × String)) (k : String) :
    ∀ l : List String,
      (l.map (fun k' => (k', sec.lookup k'))).lookup k =
        if k ∈ l then some (sec.lookup k) else none := by
  intro l
  induction l with
  | nil => simp
  | cons k' l ih =>
    rw [List.map_cons]
    by_cases hk : k = k'
    · subst hk
      simp [List.lookup_cons]
    · rw [List.lookup_cons]
      simp only [beq_false_of_ne hk, ih]
      simp [List.mem_cons, hk]

theorem lookup_isSome_of_mem_keys (k : String) :
    ∀ sec : List (String × String), k ∈ sec.map Prod.fst →
      ∃ v, sec.lookup k = some v := by
  intro sec
  induction sec with
  | nil => intro h; simp at h
  | cons kv sec ih =>
    obtain ⟨k1, v1⟩ := kv
    intro h
    by_cases he : k = k1
    · subst he
      exact ⟨v1, by simp [List.lookup_cons]⟩
    · have hmem : k ∈ sec.map Prod.fst := by
        simp only [List.map_cons, List.mem_cons] at h
        exact h.resolve_left he
      obtain ⟨v, hv⟩ := ih hmem
      exact ⟨v, by rw [List.lookup_cons]; simp [beq_false_of_ne he, hv]⟩

/-- C6: the extraneous config holds exactly the raw section's keys that are
not recognized option keys, each mapped to its unmodified raw value; a
recognized key never appears. -/
theorem C6_extraneous_config (option_keys : List String)
    (sec : List (String × String)) (k : String) :
    ((extraneous_config option_keys sec).lookup k =
      if k ∈ sec.map Prod.fst ∧ k ∉ option_keys then some (sec.lookup k)
      else none)
    ∧ (k ∈ sec.map Prod.fst ∧ k ∉ option_keys →
        ∃ v, sec.lookup k = some v ∧
          (extraneous_config option_keys sec).lookup k = some (some v)) := by
  have hmain : (extraneous_config option_keys sec).lookup k =
      if k ∈ sec.map Prod.fst ∧ k ∉ option_keys then some (sec.lookup k)
      else none := by
    rw [extraneous_config, lookup_map_self]
    by_cases hc : k ∈ sec.map Prod.fst ∧ k ∉ option_keys
    · rw [if_pos hc, if_pos]
      rw [List.mem_filter]
      exact ⟨List.mem_dedup.mpr hc.1, by simpa using hc.2⟩
    · rw [if_neg hc, if_neg]
      rw [List.mem_filter]
      rintro ⟨h1, h2⟩
      exact hc ⟨List.mem_dedup.mp h1, by simpa using h2⟩
  refine ⟨hmain, fun hc => ?_⟩
  obtain ⟨v, hv⟩ := lookup_isSome_of_mem_keys k sec hc.1
  exact ⟨v, hv, by rw [hmain, if_pos hc, hv]⟩

/-- Witness for `C6_extraneous_config`: a two-key section with one
recognized key; the unrecognized key survives with its raw value. -/
theorem C6_extraneous_config_witness :
    ∃ v, ([("trials", "3"), ("mongo.url", "x")] :
        List (String × String)).lookup "mongo.url" = some v ∧
      (extraneous_config ["trials"]
        [("trials", "3"), ("mongo.url", "x")]).lookup "mongo.url" = some (some v) :=
  (C6_extraneous_config ["trials"] [("trials", "3"), ("mongo.url", "x")]
    "mongo.url").2 (by decide)

/-! ## Section processing (`Runner.__process_dbs`) -/

/-- A target descriptor as built by `Runner.__process_dbs`: the
label-stripped DBMS name, the shared typed configuration, the extracted
label, and the shared extraneous config (the arguments of the `DbSystem`
constructor call). -/
structure DbDescriptor (Cfg Ext : Type) where
  dbname : String
  config : Cfg
  label : String
  extraneous : Ext
deriving DecidableEq

/-- The `for dbname in section:` loop of `Runner.__process_dbs` (source
lines 157–173), parameterised by the constants module's data: `re_search`
models `RE_DBNAME_LABEL.search` returning the captured label group when the
pattern matches, `re_sub` models `RE_DBNAME_LABEL.sub("", dbname)`, and
`supported_dbs` is `const.SUPPORTED_DBS`.  A name whose lowercased bare
form is unsupported is skipped (`continue`); the rest each append one
descriptor sharing `config` and `extraneous`. -/
def process_names {Cfg Ext : Type} (supported_dbs : List String)
    (re_search : String → Option String) (re_sub : String → String)
    (config : Cfg) (extraneous : Ext) : List String → List (DbDescriptor Cfg Ext)
  | [] => []
  | dbname :: rest =>
    match re_search dbname with
    | some label =>
      if supported_dbs.contains (re_sub dbname).toLower then
        ⟨re_sub dbname, config, label, extraneous⟩ ::
          process_names supported_dbs re_search re_sub config extraneous rest
      else process_names supported_dbs re_search re_sub config extraneous rest
    | none =>
      if supported_dbs.contains dbname.toLower then
        ⟨dbname, config, "", extraneous⟩ ::
          process_names supported_dbs re_search re_sub config extraneous rest
      else process_names supported_dbs re_search re_sub config extraneous rest

/-- Model of `Runner.__process_dbs` (source lines 143–174): the section heading is
split on commas, each piece stripped, and the resulting names processed in
order. -/
def process_dbs {Cfg Ext : Type} (supported_dbs : List String)
    (re_search : String → Option String) (re_sub : String → String)
    (sectionName : String) (config : Cfg) (extraneous : Ext) :
    List (DbDescriptor Cfg Ext) :=
  process_names supported_dbs re_search re_sub config extraneous
    ((sectionName.splitOn ",").map (fun s => s.trim))

/-- The bare target-kind name after label stripping, as the loop computes
it: when the label pattern matches, the pattern is substituted away. -/
def stripName (re_search : String → Option String) (re_sub : String → String)
    (n : String) : String :=
  match re_search n with
  | some _ => re_sub n
  | none => n

/-- The label the loop attaches to a name: the captured group when the
pattern matches, the empty string otherwise. -/
def labelOf (re_search : String → Option String) (n : String) : String :=
  (re_search n).getD ""

theorem process_names_eq_filter_map {Cfg Ext : Type} (supported_dbs : List String)
    (re_search : String → Option String) (re_sub : String → String)
    (config : Cfg) (extraneous : Ext) :
    ∀ names : List String,
      process_names supported_dbs re_search re_sub config extraneous names =
        (names.filter
          (fun n => supported_dbs.contains (stripName re_search re_sub n).toLower)).map
          (fun n => ⟨stripName re_search re_sub n, config,
            labelOf re_search n, extraneous⟩) := by
  intro names
  induction names with
  | nil => rfl
  | cons n names ih =>
    rw [process_names, List.filter_cons]
    cases hs : re_search n <;>
      by_cases hc : (stripName re_search re_sub n).toLower ∈ supported_dbs <;>
      simp only [stripName, hs] at hc <;>
      simp [hs, hc, ih, stripName, labelOf]

/-- C5: of the comma-separated names in a section heading, exactly those
whose label-stripped bare form passes the (case-insensitive) supported-kind
check produce a descriptor: the result is one descriptor per passing name
in order (so its length is the number of passing names, and an unsupported
name is merely skipped without affecting siblings), every descriptor shares
the identical typed config and extraneous config, and each carries the
label extracted from its own name (empty when the pattern does not match). -/
theorem C5_process_dbs_descriptors {Cfg Ext : Type} (supported_dbs : List String)
    (re_search : String → Option String) (re_sub : String → String)
    (sectionName : String) (config : Cfg) (extraneous : Ext) :
    (process_dbs supported_dbs re_search re_sub sectionName config extraneous =
      (((sectionName.splitOn ",").map (fun s => s.trim)).filter
        (fun n => supported_dbs.contains (stripName re_search re_sub n).toLower)).map
        (fun n => ⟨stripName re_search re_sub n, config,
          labelOf re_search n, extraneous⟩))
    ∧ (process_dbs supported_dbs re_search re_sub sectionName config extraneous).length =
        ((sectionName.splitOn ",").map (fun s => s.trim)).countP
          (fun n => supported_dbs.contains (stripName re_search re_sub n).toLower)
    ∧ (process_dbs supported_dbs re_search re_sub sectionName config extraneous).map
          DbDescriptor.config =
        List.replicate (process_dbs supported_dbs re_search re_sub sectionName config
          extraneous).length config
    ∧ (process_dbs supported_dbs re_search re_sub sectionName config extraneous).map
          DbDescriptor.extraneous =
        List.replicate (process_dbs supported_dbs re_search re_sub sectionName config
          extraneous).length extraneous
    ∧ (process_dbs supported_dbs re_search re_sub sectionName config extraneous).map
          DbDescriptor.label =
        (((sectionName.splitOn ",").map (fun s => s.trim)).filter
          (fun n => supported_dbs.contains
            (stripName re_search re_sub n).toLower)).map (labelOf re_search) := by
  have heq := process_names_eq_filter_map supported_dbs re_search re_sub config
    extraneous ((sectionName.splitOn ",").map (fun s => s.trim))
  have hdbs : process_dbs supported_dbs re_search re_sub sectionName config extraneous =
      (((sectionName.splitOn ",").map (fun s => s.trim)).filter
        (fun n => supported_dbs.contains (stripName re_search re_sub n).toLower)).map
        (fun n => ⟨stripName re_search re_sub n, config,
          labelOf re_search n, extraneous⟩) := heq
  refine ⟨hdbs, ?_, ?_, ?_, ?_⟩
  · rw [hdbs, List.length_map, ← List.countP_eq_length_filter]
  · rw [hdbs, List.map_map, List.length_map]
    exact List.map_const' _ config
  · rw [hdbs, List.map_map, List.length_map]
    exact List.map_const' _ extraneous
  · rw [hdbs, List.map_map]
    rfl

/-! ## Stats extraction (`Runner.extract_stats` / `Runner.get_re_match`) -/

/-- A regex match object as `Runner.get_re_match` consults it: `groups` is
the tuple of captured subgroups (`res.groups()`), whose first element is
`res.group(1)`. -/
structure ReMatch where
  groups : List String
deriving DecidableEq

/-- Model of `Runner.get_re_match` (source lines 192–204): run `regex.search` on the
string; if it matched and the pattern defines at least one capturing group,
return the first group's contents, otherwise `None`.  A compiled regex is
modelled by its `search` function. -/
def get_re_match (search : String → Option ReMatch) (s : String) : Option String :=
  match search s with
  | some res =>
    match res.groups with
    | g1 :: _ => some g1
    | [] => none
  | none => none

/-- Model of `Runner.extract_stats` (source lines 176–190): for each
`(metric, regex)` entry of `const.STAT_REGEXPS`, in table order, search the
output text; when a value is found, coerce it with the metric's
`const.TRACKED_STATS` function and store it under the metric name.  The
`Statistics(**stats)` row is modelled as the association list of set
fields: a metric absent from it is unset, not an error and not a default. -/
def extract_stats {V : Type} (stat_regexps : List (String × (String → Option ReMatch)))
    (tracked_stats : String → String → V) (stdout : String) : List (String × V) :=
  stat_regexps.filterMap (fun kr =>
    (get_re_match kr.2 stdout).map (fun m => (kr.1, tracked_stats kr.1 m)))

theorem lookup_extract_stats_not_mem {V : Type} (tracked : String → String → V)
    (s k : String) :
    ∀ tbl : List (String × (String → Option ReMatch)),
      k ∉ tbl.map Prod.fst → (extract_stats tbl tracked s).lookup k = none := by
  intro tbl
  induction tbl with
  | nil => intro _; rfl
  | cons kr tbl ih =>
    intro h
    have hne : k ≠ kr.1 := by
      intro he
      exact h (by simp [he])
    have htail : k ∉ tbl.map Prod.fst := fun hm => h (by simp [hm])
    rw [extract_stats, List.filterMap_cons]
    cases hm : (get_re_match kr.2 s).map (fun m => (kr.1, tracked kr.1 m)) with
    | none => exact ih htail
    | some kv =>
      obtain ⟨m, -, rfl⟩ := Option.map_eq_some'.mp hm
      rw [List.lookup_cons]
      simp only [beq_false_of_ne hne]
      exact ih htail

theorem lookup_extract_stats {V : Type} (tracked : String → String → V) (s : String)
    (k : String) (re : String → Option ReMatch) :
    ∀ tbl : List (String × (String → Option ReMatch)),
      (tbl.map Prod.fst).Nodup → (k, re) ∈ tbl →
      (extract_stats tbl tracked s).lookup k = (get_re_match re s).map (tracked k) := by
  intro tbl
  induction tbl with
  | nil => intro _ hk; simp at hk
  | cons kr tbl ih =>
    intro hnd hk
    obtain ⟨hhead, htl⟩ := by
      rw [List.map_cons, List.nodup_cons] at hnd
      exact hnd
    rcases List.mem_cons.mp hk with rfl | hk
    · rw [extract_stats, List.filterMap_cons]
      cases hm : (get_re_match re s).map (fun m => (k, tracked k m)) with
      | none =>
        rw [Option.map_eq_none'] at hm
        rw [hm, Option.map_none']
        exact lookup_extract_stats_not_mem tracked s k tbl hhead
      | some kv =>
        obtain ⟨m, hm', rfl⟩ := Option.map_eq_some'.mp hm
        rw [hm', Option.map_some', List.lookup_cons]
        simp
    · have hne : k ≠ kr.1 := by
        intro he
        exact hhead (he ▸ List.mem_map_of_mem Prod.fst hk)
      rw [extract_stats, List.filterMap_cons]
      cases hm : (get_re_match kr.2 s).map (fun m => (kr.1, tracked kr.1 m)) with
      | none => exact ih htl hk
      | some kv =>
        obtain ⟨m, -, rfl⟩ := Option.map_eq_some'.mp hm
        rw [List.lookup_cons]
        simp only [beq_false_of_ne hne]
        exact ih htl hk

/-- C7: for every output text and every metric of the fixed table, the
stored value is the coercion applied to the first capturing group of the
pattern's first match when the pattern matches with at least one group;
otherwise the metric is left unset in the resulting record — absent, never
an error and never a zero/empty default. -/
theorem C7_extract_stats_per_metric {V : Type}
    (tbl : List (String × (String → Option ReMatch)))
    (tracked : String → String → V) (s k : String) (re : String → Option ReMatch)
    (hnd : (tbl.map Prod.fst).Nodup) (hk : (k, re) ∈ tbl) :
    ((extract_stats tbl tracked s).lookup k = (get_re_match re s).map (tracked k))
    ∧ (∀ (res : ReMatch) (g1 : String) (gs : List String),
        re s = some res → res.groups = g1 :: gs →
        (extract_stats tbl tracked s).lookup k = some (tracked k g1))
    ∧ (re s = none → (extract_stats tbl tracked s).lookup k = none)
    ∧ (∀ res : ReMatch, re s = some res → res.groups = [] →
        (extract_stats tbl tracked s).lookup k = none) := by
  have hmain := lookup_extract_stats tracked s k re tbl hnd hk
  refine ⟨hmain, ?_, ?_, ?_⟩
  · intro res g1 gs hres hg
    have hg' : get_re_match re s = some g1 := by
      simp only [get_re_match, hres, hg]
    rw [hmain, hg', Option.map_some']
  · intro hres
    have hg' : get_re_match re s = none := by
      simp only [get_re_match, hres]
    rw [hmain, hg', Option.map_none']
  · intro res hres hg
    have hg' : get_re_match re s = none := by
      simp only [get_re_match, hres, hg]
    rw [hmain, hg', Option.map_none']

/-- Witness for `C7_extract_stats_per_metric`: a one-entry table whose
pattern matches with one group `"5"`; the identity coercion stores `"5"`. -/
theorem C7_extract_stats_per_metric_witness :
    (extract_stats [("ops", fun _ => some ⟨["5"]⟩)]
        (fun _ v => v) "output").lookup "ops" = some "5" :=
  (C7_extract_stats_per_metric [("ops", fun _ => some ⟨["5"]⟩)] (fun _ v => v)
    "output" "ops" (fun _ => some ⟨["5"]⟩) (by simp)
    (List.mem_singleton.mpr rfl)).2.1 ⟨["5"]⟩ "5" [] rfl rfl

/-! ## Typed option parsing (`Runner.__process_runner_config_keys`) and
section processing order (`Runner.__process_sections`) -/

/-- A typed configuration value as produced by the option parsers. -/
inductive CVal where
  | vInt : Int → CVal
  | vBool : Bool → CVal
  | vStr : String → CVal
deriving DecidableEq

/-- The declared type of a recognized option key as stored in
`const.OPTION_KEYS`: `int`, `bool`, `str`, a custom coercion callable, or
anything else (which the parsing loop skips with a printed warning). -/
inductive OptType where
  | tInt
  | tBool
  | tStr
  | tCustom : (String → Except String CVal) → OptType
  | tOther

/-- Model of the `configparser` raw fetch (`get`): a missing option (after defaults)
raises `NoOptionError`. -/
def cfg_get (raw : String → Option String) (k : String) : Except String String :=
  match raw k with
  | none => Except.error ("NoOptionError: " ++ k)
  | some v => Except.ok v

/-- Model of `configparser.getint`: fetch then parse as an integer; an unparsable
value raises `ValueError`. -/
def cfg_getint (raw : String → Option String) (k : String) : Except String Int :=
  match cfg_get raw k with
  | Except.error e => Except.error e
  | Except.ok v =>
    match v.toInt? with
    | some i => Except.ok i
    | none => Except.error ("ValueError: " ++ v)

/-- Model of the `configparser` boolean states: the lowercased value must be one of
`1/yes/true/on` (true) or `0/no/false/off` (false). -/
def boolean_states (v : String) : Option Bool :=
  if v.toLower = "1" ∨ v.toLower = "yes" ∨ v.toLower = "true" ∨ v.toLower = "on" then
    some true
  else if v.toLower = "0" ∨ v.toLower = "no" ∨ v.toLower = "false" ∨
      v.toLower = "off" then
    some false
  else none

/-- Model of `configparser.getboolean`: fetch then interpret via `boolean_states`;
any other value raises `ValueError`. -/
def cfg_getboolean (raw : String → Option String) (k : String) : Except String Bool :=
  match cfg_get raw k with
  | Except.error e => Except.error e
  | Except.ok v =>
    match boolean_states v with
    | some b => Except.ok b
    | none => Except.error ("ValueError: " ++ v)

/-- One iteration of the `for k, t in const.OPTION_KEYS.items()` loop of
`Runner.__process_runner_config_keys` (source lines 112–126): dispatch on
the declared type; custom callables receive the raw fetched string and may
themselves raise; an unknown declared type is skipped (no entry, no
error). -/
def coerceOption (raw : String → Option String) (k : String) :
    OptType → Except String (Option (String × CVal))
  | OptType.tInt => (cfg_getint raw k).map (fun i => some (k, CVal.vInt i))
  | OptType.tBool => (cfg_getboolean raw k).map (fun b => some (k, CVal.vBool b))
  | OptType.tStr => (cfg_get raw k).map (fun v => some (k, CVal.vStr v))
  | OptType.tCustom f =>
    match cfg_get raw k with
    | Except.error e => Except.error e
    | Except.ok v => (f v).map (fun cv => some (k, cv))
  | OptType.tOther => Except.ok none

/-- Model of `Runner.__process_runner_config_keys` (source lines 106–127): iterate
the recognized option table in order, building the typed config; the first
missing or uncoercible recognized option raises and aborts the whole
section. -/
def process_runner_config_keys (option_keys : List (String × OptType))
    (raw : String → Option String) : Except String (List (String × CVal)) :=
  match option_keys with
  | [] => Except.ok []
  | (k, t) :: rest =>
    match coerceOption raw k t with
    | Except.error e => Except.error e
    | Except.ok none => process_runner_config_keys rest raw
    | Except.ok (some kv) =>
      (process_runner_config_keys rest raw).map (fun cfg => kv :: cfg)

/-- The per-section body of `Runner.__process_sections` (source lines
100–103): first the typed options are parsed
(`__process_runner_config_keys`), then the section's DB names are processed
(`__process_dbs`).  An exception from option parsing propagates before any
name splitting or filtering happens. -/
def process_section {Ext : Type} (supported_dbs : List String)
    (re_search : String → Option String) (re_sub : String → String)
    (option_keys : List (String × OptType)) (raw : String → Option String)
    (sectionName : String) (extraneous : Ext) :
    Except String (List (DbDescriptor (List (String × CVal)) Ext)) :=
  match process_runner_config_keys option_keys raw with
  | Except.error e => Except.error e
  | Except.ok config =>
    Except.ok (process_dbs supported_dbs re_search re_sub sectionName config extraneous)

/-- C10: the typed parsing of recognized options runs before any name
splitting, label extraction or supported-kind filtering: a parse error
aborts the section with that very error for every section heading —
including headings all of whose names are unsupported and would have
produced zero descriptors — while a successful parse hands the typed
config to the name-processing stage unchanged. -/
theorem C10_typed_parse_precedes_name_processing {Ext : Type}
    (supported_dbs : List String) (re_search : String → Option String)
    (re_sub : String → String) (option_keys : List (String × OptType))
    (raw : String → Option String) (sectionName : String) (extraneous : Ext) :
    (∀ e, process_runner_config_keys option_keys raw = Except.error e →
      process_section supported_dbs re_search re_sub option_keys raw sectionName
        extraneous = Except.error e)
    ∧ ∀ config, process_runner_config_keys option_keys raw = Except.ok config →
        process_section supported_dbs re_search re_sub option_keys raw sectionName
          extraneous =
          Except.ok (process_dbs supported_dbs re_search re_sub sectionName config
            extraneous) := by
  constructor
  · intro e herr
    rw [process_section, herr]
  · intro config hok
    rw [process_section, hok]

/-- Witness for `C10_typed_parse_precedes_name_processing`: with the single
recognized integer option `trials` missing from the raw section, the
section whose only name is of an unsupported kind still fails with
`NoOptionError` instead of returning zero descriptors. -/
theorem C10_typed_parse_precedes_name_processing_witness :
    process_section ["mysql"] (fun _ => none) (fun n => n)
      [("trials", OptType.tInt)] (fun _ => none) "nosuchdb" (0 : Nat) =
      Except.error ("NoOptionError: " ++ "trials") :=
  (C10_typed_parse_precedes_name_processing ["mysql"] (fun _ => none) (fun n => n)
    [("trials", OptType.tInt)] (fun _ => none) "nosuchdb" (0 : Nat)).1
    ("NoOptionError: " ++ "trials") rfl

end YCSBRunner
